import Mathlib

/-!
Shallow embedding of the real-time session coordination and
knowledge-retrieval core of the AgentOS repository:

* `server/services/knowledgeService.js` — chunking, embeddings, cosine
  similarity, ranked search;
* `server/index.js` — the Socket.IO event handlers (chat messages, voice
  sessions, transcripts) and the `POST /api/coaching` response parsing;
* the voice agent page — the debounced coaching trigger.

Each JS function is translated into a Lean definition; JS numbers are
modelled as reals, JS strings as `List Char`, `null` as `none`, and the
single-threaded event loop as explicit state passing.
-/

namespace AgentSuccess

/-! ### Characters and JS string helpers -/

def lbrace : Char := Char.ofNat 123

def rbrace : Char := Char.ofNat 125

def backtick : Char := Char.ofNat 96

def isJsWs (c : Char) : Bool := c = ' ' || c = '\t' || c = '\n' || c = '\r'

/-- JS `String.prototype.trim` (ASCII whitespace fragment). -/
def jsTrim (s : List Char) : List Char :=
  ((s.dropWhile isJsWs).reverse.dropWhile isJsWs).reverse

def lowerChar (c : Char) : Char :=
  if 'A' ≤ c && c ≤ 'Z' then Char.ofNat (c.toNat + 32) else c

/-! ### A model of the JS builtin `JSON.parse`

Strict parse of a single JSON value, optionally surrounded by whitespace;
any leftover input makes the whole parse fail (JS throws a `SyntaxError`,
modelled as `none`).  Numbers are restricted to the integer fragment of
JSON, which covers every string this development evaluates. -/

inductive Json where
  | null : Json
  | bool : Bool → Json
  | num : Int → Json
  | str : List Char → Json
  | arr : List Json → Json
  | obj : List (List Char × Json) → Json

def isDigit (c : Char) : Bool := '0' ≤ c && c ≤ '9'

def digitsToNat (acc : ℕ) : List Char → ℕ
  | [] => acc
  | c :: cs => digitsToNat (acc * 10 + (c.toNat - 48)) cs

def parseStringBody (fuel : ℕ) (s : List Char) : Option (List Char × List Char) :=
  match fuel, s with
  | 0, _ => none
  | _, [] => none
  | fuel + 1, c :: rest =>
    if c = '"' then some ([], rest)
    else if c = '\\' then
      match rest with
      | [] => none
      | e :: rest1 =>
        let dec : Option Char :=
          if e = '"' then some '"'
          else if e = '\\' then some '\\'
          else if e = '/' then some '/'
          else if e = 'n' then some '\n'
          else if e = 't' then some '\t'
          else if e = 'r' then some '\r'
          else none
        match dec with
        | none => none
        | some ch => (parseStringBody fuel rest1).map fun p => (ch :: p.1, p.2)
    else if c.toNat < 32 then none
    else (parseStringBody fuel rest).map fun p => (c :: p.1, p.2)

mutual

def parseValue (fuel : ℕ) (s : List Char) : Option (Json × List Char) :=
  match fuel with
  | 0 => none
  | fuel + 1 =>
    match s.dropWhile isJsWs with
    | [] => none
    | c :: rest =>
      if c = 'n' then
        match rest with
        | 'u' :: 'l' :: 'l' :: r => some (Json.null, r)
        | _ => none
      else if c = 't' then
        match rest with
        | 'r' :: 'u' :: 'e' :: r => some (Json.bool true, r)
        | _ => none
      else if c = 'f' then
        match rest with
        | 'a' :: 'l' :: 's' :: 'e' :: r => some (Json.bool false, r)
        | _ => none
      else if c = '"' then
        (parseStringBody (rest.length + 1) rest).map fun p => (Json.str p.1, p.2)
      else if c = '-' then
        let ds := rest.takeWhile isDigit
        let r := rest.dropWhile isDigit
        if ds = [] then none
        else some (Json.num (-(digitsToNat 0 ds : ℤ)), r)
      else if isDigit c then
        let ds := rest.takeWhile isDigit
        let r := rest.dropWhile isDigit
        some (Json.num (digitsToNat 0 (c :: ds) : ℤ), r)
      else if c = '[' then
        match rest.dropWhile isJsWs with
        | x :: r1 => if x = ']' then some (Json.arr [], r1) else parseElems fuel rest []
        | [] => none
      else if c = lbrace then
        match rest.dropWhile isJsWs with
        | x :: r1 => if x = rbrace then some (Json.obj [], r1) else parseMembers fuel rest []
        | [] => none
      else none

def parseElems (fuel : ℕ) (s : List Char) (acc : List Json) : Option (Json × List Char) :=
  match fuel with
  | 0 => none
  | fuel + 1 =>
    match parseValue fuel s with
    | none => none
    | some (v, r) =>
      match r.dropWhile isJsWs with
      | ',' :: r1 => parseElems fuel r1 (acc ++ [v])
      | ']' :: r1 => some (Json.arr (acc ++ [v]), r1)
      | _ => none

def parseMembers (fuel : ℕ) (s : List Char) (acc : List (List Char × Json)) :
    Option (Json × List Char) :=
  match fuel with
  | 0 => none
  | fuel + 1 =>
    match s.dropWhile isJsWs with
    | '"' :: r0 =>
      match parseStringBody (r0.length + 1) r0 with
      | none => none
      | some (key, r1) =>
        match r1.dropWhile isJsWs with
        | ':' :: r2 =>
          match parseValue fuel r2 with
          | none => none
          | some (v, r3) =>
            match r3.dropWhile isJsWs with
            | ',' :: r4 => parseMembers fuel r4 (acc ++ [(key, v)])
            | c :: r4 => if c = rbrace then some (Json.obj (acc ++ [(key, v)]), r4) else none
            | [] => none
        | _ => none
    | _ => none

end

def jsonParse (s : List Char) : Option Json :=
  match parseValue (s.length + 2) s with
  | some (j, rest) => if rest.dropWhile isJsWs = [] then some j else none
  | none => none

/-! ### The coaching endpoint's response parsing

`server/index.js`, `POST /api/coaching`, lines 543–567: the generative
model's raw text is trimmed, markdown code fences are stripped, and the
result is parsed as strict JSON.  On failure the handler extracts the
substring matched by the regex `\x7b[\s\S]*\x7d` — from the *first*
opening brace to the *last* closing brace — and parses that; when the
regex finds no candidate it answers `{success:false, error:...}`; when the
extracted candidate itself fails to parse, `JSON.parse` throws into the
endpoint's outer `catch`, which answers a 500 `{error:...}` payload. -/

def fenceJson : List Char := [backtick, backtick, backtick, 'j', 's', 'o', 'n']

def fenceBare : List Char := [backtick, backtick, backtick]

/-- One anchored, case-insensitive replace of a literal head followed by
`\s*`, as in `raw.replace(/^...\s*/i, '')`. -/
def dropFenceHead (pat s : List Char) : List Char :=
  if (s.take pat.length).map lowerChar = pat.map lowerChar then
    (s.drop pat.length).dropWhile isJsWs
  else s

/-- The replace of `/\s*\x60\x60\x60$/i`: trailing fence plus the
whitespace before it. -/
def dropFenceTail (s : List Char) : List Char :=
  if s.reverse.take 3 = fenceBare then
    ((s.reverse.drop 3).dropWhile isJsWs).reverse
  else s

def cleanRaw (raw : List Char) : List Char :=
  jsTrim (dropFenceTail (dropFenceHead fenceBare (dropFenceHead fenceJson (jsTrim raw))))

/-- The part of the input up to and including its *last* closing brace. -/
def uptoLastClose (s : List Char) : Option (List Char) :=
  match s.reverse.dropWhile (fun c => c ≠ rbrace) with
  | [] => none
  | c :: r => some ((c :: r).reverse)

/-- `cleaned.match(/\x7b[\s\S]*\x7d/)`: the substring from the first
opening brace to the last closing brace, when the latter follows the
former. -/
def greedyBraceExtract : List Char → Option (List Char)
  | [] => none
  | c :: rest =>
    if c = lbrace then (uptoLastClose rest).map fun m => lbrace :: m
    else greedyBraceExtract rest

/-- The spec's words, for comparison with `greedyBraceExtract`: the first
*balanced* brace-delimited substring.  `balancedAux d rest` scans the text
after the opening brace with `d` inner braces still open. -/
def balancedAux : ℕ → List Char → Option (List Char)
  | _, [] => none
  | d, c :: rest =>
    if c = rbrace then
      if d = 0 then some [c] else (balancedAux (d - 1) rest).map fun m => c :: m
    else if c = lbrace then (balancedAux (d + 1) rest).map fun m => c :: m
    else (balancedAux d rest).map fun m => c :: m

def specFirstBalancedExtract : List Char → Option (List Char)
  | [] => none
  | c :: rest =>
    if c = lbrace then (balancedAux 0 rest).map fun m => lbrace :: m
    else specFirstBalancedExtract rest

inductive CoachingResponse where
  | success : Json → CoachingResponse
  | parseFailure : CoachingResponse
  | serverError : CoachingResponse

def CoachingResponse.isServerError : CoachingResponse → Bool
  | serverError => true
  | _ => false

/-- The parsing pipeline of `POST /api/coaching` on the model's raw text.
`parseFailure` is the `{success:false, error:'Could not parse coaching
JSON'}` response; `serverError` is the outer catch's 500 response, reached
when `JSON.parse` throws on the regex-extracted substring. -/
def coachingParse (raw : List Char) : CoachingResponse :=
  let cleaned := cleanRaw raw
  match jsonParse cleaned with
  | some j => .success j
  | none =>
    match greedyBraceExtract cleaned with
    | some sub =>
      match jsonParse sub with
      | some j => .success j
      | none => .serverError
    | none => .parseFailure

end AgentSuccess


namespace AgentSuccess

/-! ### The knowledge service (`server/services/knowledgeService.js`)

Embedding vectors are lists of reals; a chunk whose embedding request
failed carries `none` (the JS `null` that `getEmbedding` returns on
error).  The Gemini calls themselves are I/O: `search` takes the query
embedding's outcome as a parameter, and `processDocument` takes the
per-window outcome function `f`. -/

structure Chunk where
  docId : String
  docName : String
  chunkIndex : ℕ
  text : List Char
  embedding : Option (List ℝ)

structure SearchResult where
  text : List Char
  docName : String
  score : ℝ

/-- `cosineSimilarity(vecA, vecB)`: a single loop over `vecA.length`
accumulates the dot product and both norms, so only the first
`vecA.length` entries of `vecB` are ever read.  When `vecB` is shorter
than `vecA` the JS loop reads `undefined` and every accumulator becomes
NaN; that run is modelled as `none` (NaN fails every later comparison,
exactly as `none` does below). -/
noncomputable def cosineSimilarity (vecA vecB : List ℝ) : Option ℝ :=
  if vecB.length < vecA.length then none
  else
    let pairs := vecA.zip vecB
    let dotProduct := (pairs.map fun p => p.1 * p.2).sum
    let normA := (pairs.map fun p => p.1 * p.1).sum
    let normB := (pairs.map fun p => p.2 * p.2).sum
    if normA = 0 ∨ normB = 0 then some 0
    else some (dotProduct / (Real.sqrt normA * Real.sqrt normB))

/-- The filter `chunk.embedding && chunk.embedding.some(v => v !== 0)`. -/
noncomputable def hasLiveEmbedding (c : Chunk) : Bool :=
  match c.embedding with
  | some e => e.any fun v => decide (v ≠ 0)
  | none => false

/-- The `scored` pipeline of `search`: score every chunk that passes the
embedding filter, then keep the results strictly above the 0.45
relevance threshold (a NaN score fails the JS comparison and is
dropped). -/
noncomputable def scoreChunks (q : List ℝ) (chunks : List Chunk) : List SearchResult :=
  let scored := (chunks.filter hasLiveEmbedding).map fun c =>
    (c.text, c.docName, cosineSimilarity q (c.embedding.getD []))
  scored.filterMap fun s =>
    match s.2.2 with
    | some x => if 0.45 < x then some ⟨s.1, s.2.1, x⟩ else none
    | none => none

/-- `Array.prototype.sort` with comparator `(a, b) => b.score - a.score`
is a stable descending sort on scores; stable insertion sort computes the
same (unique) permutation. -/
noncomputable def insertDesc (x : SearchResult) : List SearchResult → List SearchResult
  | [] => [x]
  | y :: ys => if y.score ≤ x.score then x :: y :: ys else y :: insertDesc x ys

noncomputable def isortDesc : List SearchResult → List SearchResult
  | [] => []
  | x :: xs => insertDesc x (isortDesc xs)

/-- `search(query, limit)` with the query embedding's outcome `qEmb`
passed in (`none` is the `null` of a failed `getEmbedding`). -/
noncomputable def search (enabled : Bool) (chunks : List Chunk) (qEmb : Option (List ℝ))
    (limit : ℕ) : List SearchResult :=
  if enabled = false ∨ chunks.length = 0 then []
  else
    match qEmb with
    | none => []
    | some q => (isortDesc (scoreChunks q chunks)).take limit

/-- The chunking while-loop.  `start` advances by `size - overlap` per
iteration, so `t.length + 1` iterations of fuel always suffice when
`overlap < size`. -/
def chunkTextAux (t : List Char) (size overlap : ℕ) : ℕ → ℕ → List (List Char)
  | 0, _ => []
  | fuel + 1, start =>
    if start < t.length then
      let e := min (start + size) t.length
      let c := (t.drop start).take (e - start)
      if e = t.length then [c]
      else c :: chunkTextAux t size overlap fuel (start + (size - overlap))
    else []

def chunkText (t : List Char) (size overlap : ℕ) : List (List Char) :=
  chunkTextAux t size overlap (t.length + 1) 0

/-- Concatenation of the windows with each later window's leading
`o`-character overlap removed. -/
def dedupConcat (o : ℕ) : List (List Char) → List Char
  | [] => []
  | c :: cs => c ++ (cs.map fun w => w.drop o).flatten

structure DocMeta where
  id : String
  name : String

structure Db where
  documents : List DocMeta
  chunks : List Chunk

/-- The embedding loop of `processDocument`: window `i` gets whatever the
i-th `getEmbedding` call returned (`f i`), and every processed chunk is
pushed, failed windows included. -/
def buildChunks (d : DocMeta) (f : ℕ → Option (List ℝ)) : ℕ → List (List Char) → List Chunk
  | _, [] => []
  | i, t :: ts => ⟨d.id, d.name, i, t, f i⟩ :: buildChunks d f (i + 1) ts

/-- `processDocument(docMetadata, filePath)` after the file has been read
into `text`: chunk with size 1500 and overlap 300, embed one by one, push
document and chunks, return `true`. -/
def processDocument (db : Db) (d : DocMeta) (text : List Char) (f : ℕ → Option (List ℝ)) :
    Db × Bool :=
  let cs := chunkText text 1500 300
  let processed := buildChunks d f 0 cs
  ({ documents := db.documents ++ [d], chunks := db.chunks ++ processed }, true)

/-! ### The Socket.IO layer of `server/index.js`

State that the handlers of lines 300–364 read or write: the conversation
map, the voice-session map, room membership, and the set of connected
sockets.  `io.to(room)` sends to every member of the room; `socket.to(room)`
to every member but the sender; `io.emit` to every connected socket.  The
register, join_conversation and typing handlers touch no state the
theorems below mention and are left out; the three `voice_webrtc_*`
events the pages emit have no registered handler on the server, so
dispatching them changes nothing and emits nothing. -/

abbrev SocketId := ℕ

structure Message where
  id : ℕ
  role : Option String
  text : String
  time : ℕ
  conversationId : String
deriving DecidableEq

structure Conversation where
  id : String
  messages : List Message
  customerName : String
  status : String
  startTime : ℕ
deriving DecidableEq

structure TranscriptEntry where
  id : String
  speaker : String
  text : String
  time : String
deriving DecidableEq

structure VoiceSession where
  entries : List TranscriptEntry
  callerName : String
deriving DecidableEq

structure ServerState where
  conversations : List (String × Conversation)
  voiceSessions : List (String × VoiceSession)
  rooms : List (SocketId × String)
  connected : List SocketId
deriving DecidableEq

structure Socket where
  id : SocketId
  role : Option String
  conversationId : Option String
deriving DecidableEq

inductive ClientEvent where
  | sendMessage (conversationId : Option String) (text : String) (role : Option String)
  | voiceStart (sessionId : String) (callerName : Option String)
  | voiceJoin (sessionId : String)
  | voiceTranscript (sessionId : String) (entry : TranscriptEntry)
  | voiceEnd (sessionId : String)
  | webrtcOffer (sessionId : String) (payload : String)
  | webrtcAnswer (sessionId : String) (payload : String)
  | webrtcIce (sessionId : String) (payload : String)
deriving DecidableEq

inductive ServerEvent where
  | newMessage (msg : Message)
  | updateConversations (convs : List Conversation)
  | voiceHistory (entries : List TranscriptEntry)
  | voiceNewEntry (sessionId : String) (entry : TranscriptEntry)
  | voiceSessionEnded (sessionId : String)
deriving DecidableEq

structure Emit where
  recipients : List SocketId
  event : ServerEvent
deriving DecidableEq

def voiceRoom (sessionId : String) : String := "voice-" ++ sessionId

def roomMembers (st : ServerState) (room : String) : List SocketId :=
  (st.rooms.filter fun m => m.2 = room).map fun m => m.1

/-- Recipients of a `socket.to(room)` broadcast: the room minus the
sender. -/
def othersIn (st : ServerState) (room : String) (sender : SocketId) : List SocketId :=
  (roomMembers st room).filter fun i => i ≠ sender

def joinRoom (st : ServerState) (sid : SocketId) (room : String) : ServerState :=
  if (sid, room) ∈ st.rooms then st else { st with rooms := st.rooms ++ [(sid, room)] }

def lookupKey {α : Type} (l : List (String × α)) (k : String) : Option α :=
  (l.find? fun p => p.1 = k).map fun p => p.2

def setKey {α : Type} (l : List (String × α)) (k : String) (v : α) : List (String × α) :=
  if (l.find? fun p => p.1 = k).isSome
  then l.map fun p => if p.1 = k then (k, v) else p
  else l ++ [(k, v)]

def removeKey {α : Type} (l : List (String × α)) (k : String) : List (String × α) :=
  l.filter fun p => p.1 ≠ k

/-- One dispatch of a client event, `server/index.js` lines 300–364;
`now` stands for `Date.now()`, used for the message id and timestamp. -/
def serverHandle (st : ServerState) (sock : Socket) (ev : ClientEvent) (now : ℕ) :
    ServerState × Socket × List Emit :=
  match ev with
  | .sendMessage conversationId text role =>
    match conversationId.orElse fun _ => sock.conversationId with
    | none => (st, sock, [])
    | some tid =>
      match lookupKey st.conversations tid with
      | none => (st, sock, [])
      | some conv =>
        let msg : Message := ⟨now, role.orElse fun _ => sock.role, text, now, tid⟩
        let conv1 := { conv with messages := conv.messages ++ [msg] }
        let st1 := { st with conversations := setKey st.conversations tid conv1 }
        (st1, sock,
          [⟨roomMembers st1 tid, .newMessage msg⟩,
           ⟨st1.connected, .updateConversations (st1.conversations.map fun p => p.2)⟩])
  | .voiceStart sessionId callerName =>
    let st1 := joinRoom st sock.id (voiceRoom sessionId)
    let st2 := { st1 with
      voiceSessions := setKey st1.voiceSessions sessionId ⟨[], callerName.getD "Caller"⟩ }
    (st2, sock, [])
  | .voiceJoin sessionId =>
    let st1 := joinRoom st sock.id (voiceRoom sessionId)
    match lookupKey st1.voiceSessions sessionId with
    | some session => (st1, sock, [⟨[sock.id], .voiceHistory session.entries⟩])
    | none => (st1, sock, [])
  | .voiceTranscript sessionId entry =>
    let st1 :=
      match lookupKey st.voiceSessions sessionId with
      | some session =>
        { st with voiceSessions :=
            setKey st.voiceSessions sessionId { session with entries := session.entries ++ [entry] } }
      | none => st
    (st1, sock, [⟨othersIn st1 (voiceRoom sessionId) sock.id, .voiceNewEntry sessionId entry⟩])
  | .voiceEnd sessionId =>
    ({ st with voiceSessions := removeKey st.voiceSessions sessionId }, sock,
      [⟨othersIn st (voiceRoom sessionId) sock.id, .voiceSessionEnded sessionId⟩])
  | .webrtcOffer _ _ => (st, sock, [])
  | .webrtcAnswer _ _ => (st, sock, [])
  | .webrtcIce _ _ => (st, sock, [])

/-! ### The voice agent page's coaching debounce

The `useEffect` on `transcript` (AI coaching section of the voice agent
page): entries whose text trims to empty are filtered away; when nothing
remains the effect returns early without touching the pending timer;
otherwise the pending timer, if any, is cleared and a new 1500 ms timer
is armed whose callback posts the `finalEntries` captured *now*.  Time is
a natural-number clock; a pending timer due at or before the next event's
arrival fires first, as the event loop would run its callback. -/

def finalEntries (transcript : List TranscriptEntry) : List TranscriptEntry :=
  transcript.filter fun e => jsTrim e.text.toList ≠ []

def fireIfDue (pending : Option (ℕ × List TranscriptEntry)) (now : ℕ) :
    Option (ℕ × List TranscriptEntry) × List (List TranscriptEntry) :=
  match pending with
  | some (d, snap) => if d ≤ now then (none, [snap]) else (some (d, snap), [])
  | none => (none, [])

/-- One run of the effect body at time `now` with the current
`transcript`. -/
def armEffect (pending : Option (ℕ × List TranscriptEntry)) (now : ℕ)
    (transcript : List TranscriptEntry) : Option (ℕ × List TranscriptEntry) :=
  let fin := finalEntries transcript
  if fin = [] then pending else some (now + 1500, fin)

/-- Fold a timed trace of transcript snapshots through the debounce,
collecting the coaching invocations (each with the entry list captured
when its timer was armed). -/
def debounceRun (pending : Option (ℕ × List TranscriptEntry)) :
    List (ℕ × List TranscriptEntry) →
      Option (ℕ × List TranscriptEntry) × List (List TranscriptEntry)
  | [] => (pending, [])
  | (t, tr) :: rest =>
    let p1 := fireIfDue pending t
    let p2 := armEffect p1.1 t tr
    let p3 := debounceRun p2 rest
    (p3.1, p1.2 ++ p3.2)

/-- All invocations once the trace is over and any last timer has
expired. -/
def debounceComplete (events : List (ℕ × List TranscriptEntry)) : List (List TranscriptEntry) :=
  let p := debounceRun none events
  p.2 ++ (match p.1 with | some (_, snap) => [snap] | none => [])

end AgentSuccess





namespace AgentSuccess

/-! ### Lemmas about the ranked-search pipeline -/

theorem mem_insertDesc {x a : SearchResult} {l : List SearchResult} :
    a ∈ insertDesc x l ↔ a = x ∨ a ∈ l := by
  induction l with
  | nil => simp [insertDesc]
  | cons y ys ih =>
    simp only [insertDesc]
    by_cases h : y.score ≤ x.score
    · rw [if_pos h]; simp [List.mem_cons]
    · rw [if_neg h]; simp only [List.mem_cons, ih]; tauto

theorem insertDesc_pairwise {x : SearchResult} {l : List SearchResult}
    (h : l.Pairwise fun a b => b.score ≤ a.score) :
    (insertDesc x l).Pairwise fun a b => b.score ≤ a.score := by
  induction l with
  | nil => simp [insertDesc]
  | cons y ys ih =>
    rw [List.pairwise_cons] at h
    obtain ⟨hy, hys⟩ := h
    simp only [insertDesc]
    by_cases hc : y.score ≤ x.score
    · rw [if_pos hc]
      refine List.Pairwise.cons ?_ (List.Pairwise.cons hy hys)
      intro z hz
      rcases List.mem_cons.mp hz with rfl | hz1
      · exact hc
      · exact le_trans (hy z hz1) hc
    · rw [if_neg hc]
      refine List.Pairwise.cons ?_ (ih hys)
      intro z hz
      rcases mem_insertDesc.mp hz with rfl | hz1
      · exact le_of_not_le hc
      · exact hy z hz1

theorem isortDesc_pairwise (l : List SearchResult) :
    (isortDesc l).Pairwise fun a b => b.score ≤ a.score := by
  induction l with
  | nil => simp [isortDesc]
  | cons x xs ih => exact insertDesc_pairwise ih

theorem mem_isortDesc {a : SearchResult} {l : List SearchResult} :
    a ∈ isortDesc l ↔ a ∈ l := by
  induction l with
  | nil => simp [isortDesc]
  | cons x xs ih => simp [isortDesc, mem_insertDesc, ih]

theorem insertDesc_filter_ne {x : SearchResult} {l : List SearchResult} {s : ℝ}
    (h : x.score ≠ s) :
    (insertDesc x l).filter (fun r => decide (r.score = s)) =
      l.filter (fun r => decide (r.score = s)) := by
  induction l with
  | nil => simp [insertDesc, h]
  | cons y ys ih =>
    simp only [insertDesc]
    by_cases hc : y.score ≤ x.score
    · rw [if_pos hc]; simp [List.filter, h]
    · rw [if_neg hc]; simp only [List.filter_cons, ih]

theorem insertDesc_filter_eq {x : SearchResult} {l : List SearchResult} {s : ℝ}
    (h : x.score = s) :
    (insertDesc x l).filter (fun r => decide (r.score = s)) =
      x :: l.filter (fun r => decide (r.score = s)) := by
  induction l with
  | nil => simp [insertDesc, h]
  | cons y ys ih =>
    simp only [insertDesc]
    by_cases hc : y.score ≤ x.score
    · rw [if_pos hc]; simp [List.filter, h]
    · rw [if_neg hc]
      have hy : y.score ≠ s := by rw [← h]; exact ne_of_gt (lt_of_not_le hc)
      simp only [List.filter_cons, hy, decide_eq_true_eq, if_neg, ih]
      simp [hy]

/-- Stability of the sort: results with any fixed score keep their
relative (insertion) order. -/
theorem isortDesc_filter (l : List SearchResult) (s : ℝ) :
    (isortDesc l).filter (fun r => decide (r.score = s)) =
      l.filter (fun r => decide (r.score = s)) := by
  induction l with
  | nil => simp [isortDesc]
  | cons x xs ih =>
    simp only [isortDesc]
    by_cases h : x.score = s
    · rw [insertDesc_filter_eq h, ih]; simp [List.filter_cons, h]
    · rw [insertDesc_filter_ne h, ih]; simp [List.filter_cons, h]

theorem cosineSimilarity_some_length {vecA vecB : List ℝ} {x : ℝ}
    (h : cosineSimilarity vecA vecB = some x) : vecA.length ≤ vecB.length := by
  by_cases hl : vecB.length < vecA.length
  · simp only [cosineSimilarity, if_pos hl] at h; cases h
  · exact le_of_not_lt hl

theorem mem_scoreChunks {q : List ℝ} {chunks : List Chunk} {r : SearchResult}
    (h : r ∈ scoreChunks q chunks) :
    0.45 < r.score ∧ ∃ c, c ∈ chunks ∧ hasLiveEmbedding c = true ∧ r.text = c.text ∧
      r.docName = c.docName ∧ cosineSimilarity q (c.embedding.getD []) = some r.score := by
  simp only [scoreChunks] at h
  obtain ⟨s, hs, hfs⟩ := List.mem_filterMap.mp h
  obtain ⟨c, hc, rfl⟩ := List.mem_map.mp hs
  obtain ⟨hcm, hclive⟩ := List.mem_filter.mp hc
  cases hcos : cosineSimilarity q (c.embedding.getD []) with
  | none => rw [hcos] at hfs; simp at hfs
  | some x =>
    rw [hcos] at hfs
    simp only at hfs
    by_cases ht : (0.45 : ℝ) < x
    · rw [if_pos ht] at hfs
      obtain rfl := Option.some_injective _ hfs
      exact ⟨ht, c, hcm, hclive, rfl, rfl, hcos⟩
    · rw [if_neg ht] at hfs; cases hfs

end AgentSuccess

namespace AgentSuccess

/-! ### Concrete stores used to evaluate `search`

Unit query `q4` and rational unit chunk embeddings whose first coordinate
is the cosine score the spec's examples name. -/

theorem cosineSimilarity_unit4 (a b c d : ℝ)
    (h : a * a + (b * b + (c * c + d * d)) = 1) :
    cosineSimilarity [1, 0, 0, 0] [a, b, c, d] = some a := by
  simp only [cosineSimilarity, List.length_cons, List.length_nil, List.zip,
    List.zipWith, List.map, List.sum_cons, List.sum_nil]
  norm_num [h]

noncomputable def q4 : List ℝ := [1, 0, 0, 0]

noncomputable def c04 : Chunk := ⟨"d1", "doc", 0, "t04".toList, some [2/5, 22/25, 1/5, 4/25]⟩

noncomputable def c05 : Chunk := ⟨"d1", "doc", 1, "t05".toList, some [1/2, 1/2, 1/2, 1/2]⟩

noncomputable def c09 : Chunk := ⟨"d1", "doc", 2, "t09".toList, some [9/10, 3/10, 3/10, 1/10]⟩

noncomputable def c06 : Chunk := ⟨"d1", "doc", 3, "t06".toList, some [3/5, 4/5, 0, 0]⟩

theorem cosEval04 : cosineSimilarity q4 (c04.embedding.getD []) = some (2/5) := by
  show cosineSimilarity [1, 0, 0, 0] [2/5, 22/25, 1/5, 4/25] = some (2/5)
  rw [cosineSimilarity_unit4]
  norm_num

theorem searchEval04 : search true [c04] (some q4) 5 = [] := by
  simp only [search]
  rw [if_neg (by simp)]
  have h : scoreChunks q4 [c04] = [] := by
    simp only [scoreChunks, q4, c04, List.filter, hasLiveEmbedding, List.any_cons, List.any_nil,
      List.map, List.filterMap_cons, List.filterMap_nil]
    norm_num [cosineSimilarity_unit4, List.filterMap_cons]
  rw [h]
  rfl

theorem searchEval05 : search true [c05] (some q4) 1 = [⟨"t05".toList, "doc", 1/2⟩] := by
  simp only [search]
  rw [if_neg (by simp)]
  have h : scoreChunks q4 [c05] = [⟨"t05".toList, "doc", 1/2⟩] := by
    simp only [scoreChunks, q4, c05, List.filter, hasLiveEmbedding, List.any_cons, List.any_nil,
      List.map, List.filterMap_cons, List.filterMap_nil]
    norm_num [cosineSimilarity_unit4, List.filterMap_cons]
  rw [h]
  simp [isortDesc, insertDesc]

theorem searchEval0906 : search true [c09, c06] (some q4) 5 =
    [⟨"t09".toList, "doc", 9/10⟩, ⟨"t06".toList, "doc", 3/5⟩] := by
  simp only [search]
  rw [if_neg (by simp)]
  have h : scoreChunks q4 [c09, c06] =
      [⟨"t09".toList, "doc", 9/10⟩, ⟨"t06".toList, "doc", 3/5⟩] := by
    simp only [scoreChunks, q4, c09, c06, List.filter, hasLiveEmbedding, List.any_cons,
      List.any_nil, List.map, List.filterMap_cons, List.filterMap_nil]
    norm_num [cosineSimilarity_unit4, List.filterMap_cons]
  rw [h]
  simp only [isortDesc, insertDesc]
  rw [if_pos (by norm_num)]
  simp [List.take]

/-- A store whose single chunk carries a three-dimensional embedding,
queried with a two-dimensional embedding. -/
noncomputable def qC9 : List ℝ := [1, 0]

noncomputable def cC9 : Chunk := ⟨"d1", "doc", 0, "big".toList, some [3/5, 4/5, 999]⟩

theorem searchEvalC9 : search true [cC9] (some qC9) 5 = [⟨"big".toList, "doc", 3/5⟩] := by
  simp only [search]
  rw [if_neg (by simp)]
  have h : scoreChunks qC9 [cC9] = [⟨"big".toList, "doc", 3/5⟩] := by
    simp only [scoreChunks, qC9, cC9, List.filter, hasLiveEmbedding, List.any_cons, List.any_nil,
      List.map, List.filterMap_cons, List.filterMap_nil]
    have hcos : cosineSimilarity [1, 0] [(3:ℝ)/5, 4/5, 999] = some (3/5) := by
      simp only [cosineSimilarity, List.length_cons, List.length_nil, List.zip,
        List.zipWith, List.map, List.sum_cons, List.sum_nil]
      norm_num
    norm_num [hcos, List.filterMap_cons]
  rw [h]
  simp [isortDesc, insertDesc]

end AgentSuccess

namespace AgentSuccess

/-! ### Lemmas about chunking -/

theorem chunkTextAux_succ (t : List Char) (S O fuel start : ℕ) :
    chunkTextAux t S O (fuel + 1) start =
      if start < t.length then
        if min (start + S) t.length = t.length
        then [(t.drop start).take (min (start + S) t.length - start)]
        else ((t.drop start).take (min (start + S) t.length - start)) ::
          chunkTextAux t S O fuel (start + (S - O))
      else [] := by
  rfl

theorem chunkTextAux_nil (t : List Char) (S O fuel start : ℕ) (h : ¬ start < t.length) :
    chunkTextAux t S O (fuel + 1) start = [] := by
  rw [chunkTextAux_succ, if_neg h]

theorem chunkTextAux_last {t : List Char} {S O fuel start : ℕ} (h1 : start < t.length)
    (h2 : t.length ≤ start + S) :
    chunkTextAux t S O (fuel + 1) start = [(t.drop start).take (t.length - start)] := by
  rw [chunkTextAux_succ, if_pos h1]
  have he : min (start + S) t.length = t.length := by omega
  rw [he, if_pos rfl]

theorem chunkTextAux_step {t : List Char} {S O fuel start : ℕ} (h : start + S < t.length) :
    chunkTextAux t S O (fuel + 1) start =
      ((t.drop start).take S) :: chunkTextAux t S O fuel (start + (S - O)) := by
  rw [chunkTextAux_succ, if_pos (by omega)]
  have he : min (start + S) t.length = start + S := by omega
  rw [he, if_neg (by omega)]
  have hS : start + S - start = S := by omega
  rw [hS]

theorem chunkTextAux_head {t : List Char} {S O fuel start : ℕ} (h1 : start < t.length) :
    ∃ cs, chunkTextAux t S O (fuel + 1) start =
      ((t.drop start).take (min S (t.length - start))) :: cs := by
  by_cases h2 : start + S < t.length
  · have hm : min S (t.length - start) = S := by omega
    rw [hm]
    exact ⟨_, chunkTextAux_step h2⟩
  · have hm : min S (t.length - start) = t.length - start := by omega
    rw [hm]
    exact ⟨[], chunkTextAux_last h1 (by omega)⟩

theorem chunkTextAux_recon {t : List Char} {S O : ℕ} (hO : O < S) :
    ∀ fuel start, t.length - start < fuel → start < t.length →
      dedupConcat O (chunkTextAux t S O fuel start) = t.drop start := by
  intro fuel
  induction fuel with
  | zero => intro start h1 h2; omega
  | succ fuel ih =>
    intro start h1 h2
    by_cases h3 : start + S < t.length
    · rw [chunkTextAux_step h3]
      have hs1 : start + (S - O) < t.length := by omega
      have hf : t.length - (start + (S - O)) < fuel := by omega
      obtain ⟨f2, rfl⟩ : ∃ f2, fuel = f2 + 1 := ⟨fuel - 1, by omega⟩
      obtain ⟨cs, hcs⟩ := @chunkTextAux_head t S O f2 (start + (S - O)) hs1
      have hrec := ih (start + (S - O)) hf hs1
      rw [hcs] at hrec ⊢
      simp only [dedupConcat, List.map_cons, List.flatten_cons] at hrec ⊢
      have hhead : ((t.drop (start + (S - O))).take (min S (t.length - (start + (S - O))))).length =
          min S (t.length - (start + (S - O))) := by
        rw [List.length_take, List.length_drop]
        omega
      have hO1 : O ≤ ((t.drop (start + (S - O))).take (min S (t.length - (start + (S - O))))).length := by
        rw [hhead]; omega
      rw [← List.drop_append_of_le_length hO1, hrec, List.drop_drop]
      have hsum : start + (S - O) + O = start + S := by omega
      rw [hsum]
      have hd : t.drop (start + S) = (t.drop start).drop S := by
        rw [List.drop_drop]
      rw [hd, List.take_append_drop]
    · rw [chunkTextAux_last h2 (by omega)]
      simp only [dedupConcat, List.map_nil, List.flatten_nil, List.append_nil]
      rw [List.take_of_length_le (by rw [List.length_drop])]

theorem chunkTextAux_get {t : List Char} {S O : ℕ} :
    ∀ fuel start i c, (chunkTextAux t S O fuel start)[i]? = some c →
      (c = (t.drop (start + i * (S - O))).take S ∧
        (i + 1 < (chunkTextAux t S O fuel start).length → c.length = S)) := by
  intro fuel
  induction fuel with
  | zero => intro start i c h; simp [chunkTextAux] at h
  | succ fuel ih =>
    intro start i c h
    by_cases h2 : start < t.length
    · by_cases h3 : start + S < t.length
      · rw [chunkTextAux_step h3] at h ⊢
        cases i with
        | zero =>
          rw [List.getElem?_cons_zero] at h
          obtain rfl := Option.some_injective _ h
          constructor
          · simp
          · intro _
            rw [List.length_take, List.length_drop]
            omega
        | succ i =>
          rw [List.getElem?_cons_succ] at h
          obtain ⟨hc, hlen⟩ := ih (start + (S - O)) i c h
          constructor
          · rw [hc]
            congr 2
            rw [Nat.succ_mul]
            omega
          · intro hi
            exact hlen (by simpa using hi)
      · rw [chunkTextAux_last h2 (by omega)] at h ⊢
        cases i with
        | zero =>
          rw [List.getElem?_cons_zero] at h
          obtain rfl := Option.some_injective _ h
          constructor
          · rw [Nat.zero_mul, Nat.add_zero]
            rw [List.take_of_length_le (by rw [List.length_drop]),
              List.take_of_length_le (by rw [List.length_drop]; omega)]
          · intro hi
            simp at hi
        | succ i => simp at h
    · rw [chunkTextAux_nil t S O fuel start h2] at h
      simp at h

end AgentSuccess

namespace AgentSuccess

/-! ### Lemmas about the brace extraction -/

theorem dropWhileHead {p : Char → Bool} :
    ∀ {l : List Char} {c : Char} {r : List Char}, l.dropWhile p = c :: r → p c = false := by
  intro l
  induction l with
  | nil => intro c r h; simp [List.dropWhile] at h
  | cons a as ih =>
    intro c r h
    rw [List.dropWhile_cons] at h
    by_cases hp : p a
    · rw [if_pos hp] at h; exact ih h
    · rw [if_neg hp] at h
      obtain ⟨rfl, _⟩ := List.cons.injEq a as c r ▸ h
      simpa using hp

theorem uptoLastClose_spec {s m : List Char} (h : uptoLastClose s = some m) :
    ∃ post, s = m ++ post ∧ rbrace ∉ post ∧ m.getLast? = some rbrace := by
  unfold uptoLastClose at h
  cases hd : s.reverse.dropWhile (fun c => decide (c ≠ rbrace)) with
  | nil => rw [hd] at h; cases h
  | cons c r =>
    rw [hd] at h
    obtain rfl : m = (c :: r).reverse := (Option.some_injective _ h).symm
    have hc : c = rbrace := by
      have := dropWhileHead hd
      simpa using this
    have hsplit : s.reverse = s.reverse.takeWhile (fun c => decide (c ≠ rbrace)) ++ (c :: r) := by
      rw [← hd, List.takeWhile_append_dropWhile]
    refine ⟨(s.reverse.takeWhile (fun c => decide (c ≠ rbrace))).reverse, ?_, ?_, ?_⟩
    · calc s = s.reverse.reverse := by rw [List.reverse_reverse]
      _ = ((s.reverse.takeWhile (fun c => decide (c ≠ rbrace))) ++ (c :: r)).reverse := by
          rw [← hsplit]
      _ = (c :: r).reverse ++ (s.reverse.takeWhile (fun c => decide (c ≠ rbrace))).reverse := by
          rw [List.reverse_append]
    · intro hmem
      have hmem2 := List.mem_reverse.mp hmem
      have := List.mem_takeWhile_imp hmem2
      simp at this
    · rw [List.getLast?_reverse]
      simp [hc]

theorem greedyBraceExtract_spec :
    ∀ {s sub : List Char}, greedyBraceExtract s = some sub →
      ∃ pre post, s = pre ++ sub ++ post ∧ lbrace ∉ pre ∧ rbrace ∉ post ∧
        sub.head? = some lbrace ∧ sub.getLast? = some rbrace := by
  intro s
  induction s with
  | nil => intro sub h; simp [greedyBraceExtract] at h
  | cons c rest ih =>
    intro sub h
    by_cases hc : c = lbrace
    · subst hc
      simp only [greedyBraceExtract, if_pos rfl] at h
      obtain ⟨m, hup, rfl⟩ := Option.map_eq_some'.mp h
      obtain ⟨post, hpost, hnpost, hlast⟩ := uptoLastClose_spec hup
      refine ⟨[], post, ?_, by simp, hnpost, by simp, ?_⟩
      · rw [hpost]; simp
      · cases m with
        | nil => cases hlast
        | cons a as => rw [List.getLast?_cons_cons]; exact hlast
    · simp only [greedyBraceExtract, if_neg hc] at h
      obtain ⟨pre, post, heq, hnpre, hnpost, hhead, hlast⟩ := ih h
      refine ⟨c :: pre, post, ?_, ?_, hnpost, hhead, hlast⟩
      · rw [heq]; simp
      · intro hm
        rcases List.mem_cons.mp hm with rfl | hm2
        · exact hc rfl
        · exact hnpre hm2

end AgentSuccess

namespace AgentSuccess

/-! ### Lemmas about document ingestion -/

theorem buildChunks_length (d : DocMeta) (f : ℕ → Option (List ℝ)) :
    ∀ (l : List (List Char)) (j : ℕ), (buildChunks d f j l).length = l.length := by
  intro l
  induction l with
  | nil => intro j; rfl
  | cons t ts ih => intro j; simp [buildChunks, ih]

theorem buildChunks_get (d : DocMeta) (f : ℕ → Option (List ℝ)) :
    ∀ (l : List (List Char)) (j i : ℕ),
      (buildChunks d f j l)[i]? = (l[i]?).map fun ct => ⟨d.id, d.name, j + i, ct, f (j + i)⟩ := by
  intro l
  induction l with
  | nil => intro j i; simp [buildChunks]
  | cons t ts ih =>
    intro j i
    cases i with
    | zero => simp [buildChunks]
    | succ i =>
      simp only [buildChunks, List.getElem?_cons_succ, ih (j + 1) i]
      have : j + 1 + i = j + (i + 1) := by omega
      rw [this]

theorem hasLive_isSome {c : Chunk} (h : hasLiveEmbedding c = true) : c.embedding.isSome := by
  cases he : c.embedding with
  | none => rw [hasLiveEmbedding, he] at h; cases h
  | some e => rfl

/-- Chunks whose embedding is the JS `null` never influence a search:
removing them from the store leaves every result unchanged. -/
theorem search_ignores_null (enabled : Bool) (chunks : List Chunk) (qEmb : Option (List ℝ))
    (limit : ℕ) :
    search enabled chunks qEmb limit =
      search enabled (chunks.filter fun c => c.embedding.isSome) qEmb limit := by
  have hfilter : ∀ q, scoreChunks q (chunks.filter fun c => c.embedding.isSome) =
      scoreChunks q chunks := by
    intro q
    simp only [scoreChunks]
    congr 1
    congr 1
    rw [List.filter_filter]
    apply List.filter_congr
    intro c _
    cases he : c.embedding with
    | none => simp [hasLiveEmbedding, he]
    | some e => simp [hasLiveEmbedding, he]
  by_cases hen : enabled = false
  · subst hen; simp [search]
  · by_cases hlen0 : chunks.length = 0
    · rw [List.length_eq_zero] at hlen0
      subst hlen0
      simp [search]
    · by_cases hf : (chunks.filter fun c => c.embedding.isSome).length = 0
      · -- every chunk's embedding is null: the filtered store is empty and
        -- the unfiltered pipeline scores nothing
        simp only [search, if_neg (by simp [hen, hlen0] : ¬(enabled = false ∨ chunks.length = 0)),
          if_pos (Or.inr hf)]
        cases qEmb with
        | none => rfl
        | some q =>
          have hnil : scoreChunks q chunks = [] := by
            rw [← hfilter q, List.length_eq_zero.mp hf]
            rfl
          show List.take limit (isortDesc (scoreChunks q chunks)) = []
          rw [hnil]
          simp [isortDesc]
      · simp only [search, if_neg (by simp [hen, hlen0] : ¬(enabled = false ∨ chunks.length = 0)),
          if_neg (by simp [hen, hf] :
            ¬(enabled = false ∨ (chunks.filter fun c => c.embedding.isSome).length = 0))]
        cases qEmb with
        | none => rfl
        | some q =>
          show List.take limit (isortDesc (scoreChunks q chunks)) =
            List.take limit (isortDesc (scoreChunks q (chunks.filter fun c => c.embedding.isSome)))
          rw [hfilter q]

/-! ### A 1600-character document: two windows, the second window's
embedding request fails -/

def tBig : List Char := List.replicate 1600 'a'

def dC3 : DocMeta := ⟨"doc-1", "handbook"⟩

noncomputable def fC3 : ℕ → Option (List ℝ) := fun i => if i = 0 then some [1] else none

theorem chunkText_tBig : chunkText tBig 1500 300 = [tBig.take 1500, (tBig.drop 1200).take 400] := by
  have hlen : tBig.length = 1600 := by
    simp only [tBig, List.length_replicate]
  rw [chunkText, hlen]
  rw [show (1600 + 1 : ℕ) = 1600 + 1 from rfl]
  rw [chunkTextAux_step (by rw [hlen]; omega)]
  have h12 : 0 + (1500 - 300) = 1200 := by norm_num
  rw [h12]
  rw [show (1600 : ℕ) = 1599 + 1 from rfl]
  rw [chunkTextAux_last (by rw [hlen]; omega) (by rw [hlen]; omega), hlen]
  norm_num

end AgentSuccess

namespace AgentSuccess

/-! ### Equation lemmas for `search` -/

theorem search_trivial (enabled : Bool) (chunks : List Chunk) (qEmb : Option (List ℝ))
    (limit : ℕ) (h : enabled = false ∨ chunks.length = 0) :
    search enabled chunks qEmb limit = [] := by
  simp only [search, if_pos h]

theorem search_nil (enabled : Bool) (qEmb : Option (List ℝ)) (limit : ℕ) :
    search enabled [] qEmb limit = [] := by
  simp [search]

theorem search_none (enabled : Bool) (chunks : List Chunk) (limit : ℕ) :
    search enabled chunks none limit = [] := by
  by_cases h : enabled = false ∨ chunks.length = 0
  · simp only [search, if_pos h]
  · simp only [search, if_neg h]

theorem search_some (enabled : Bool) (chunks : List Chunk) (q : List ℝ) (limit : ℕ)
    (h : ¬(enabled = false ∨ chunks.length = 0)) :
    search enabled chunks (some q) limit = (isortDesc (scoreChunks q chunks)).take limit := by
  simp only [search, if_neg h]

end AgentSuccess

namespace AgentSuccess

/-! ### The claims -/

/-- C1: the spec says every signaling message (offer, answer, ICE
candidate) emitted with a sessionId is forwarded unchanged to the other
member of the session's room.  The server registers no handler for any of
the three `voice_webrtc_*` events either page emits, so dispatching one
changes no state and forwards nothing to anyone; the voice pages implement
both halves of the exchange and wait for the relayed copies, so the
missing relay is a server-side slip rather than intent. -/
theorem C1_signaling_relay_missing :
    ∀ (st : ServerState) (sock : Socket) (s payload : String) (now : ℕ),
      serverHandle st sock (.webrtcOffer s payload) now = (st, sock, []) ∧
      serverHandle st sock (.webrtcAnswer s payload) now = (st, sock, []) ∧
      serverHandle st sock (.webrtcIce s payload) now = (st, sock, []) := by
  intro st sock s payload now
  exact ⟨rfl, rfl, rfl⟩

/-- C2: `search` keeps only chunks scoring strictly above 0.45, sorts the
survivors by descending score with ties kept in store (insertion) order,
and returns at most `limit` results of shape {text, docName, score}; in
particular a 0.40-scoring chunk is excluded, a 0.50-scoring chunk is
returned at limit 1, and chunks scoring 0.9 and 0.6 come back in the order
[0.9, 0.6]. -/
theorem C2_search_ranking :
    (∀ (enabled : Bool) (chunks : List Chunk) (qEmb : Option (List ℝ)) (limit : ℕ)
        (r : SearchResult), r ∈ search enabled chunks qEmb limit → (0.45 : ℝ) < r.score) ∧
    (∀ (enabled : Bool) (chunks : List Chunk) (qEmb : Option (List ℝ)) (limit : ℕ),
        (search enabled chunks qEmb limit).length ≤ limit) ∧
    (∀ (enabled : Bool) (chunks : List Chunk) (qEmb : Option (List ℝ)) (limit : ℕ),
        (search enabled chunks qEmb limit).Pairwise fun a b => b.score ≤ a.score) ∧
    (∀ (l : List SearchResult) (s : ℝ),
        (isortDesc l).filter (fun r => decide (r.score = s)) =
          l.filter (fun r => decide (r.score = s))) ∧
    search true [c04] (some q4) 5 = [] ∧
    search true [c05] (some q4) 1 = [⟨"t05".toList, "doc", 1/2⟩] ∧
    search true [c09, c06] (some q4) 5 =
      [⟨"t09".toList, "doc", 9/10⟩, ⟨"t06".toList, "doc", 3/5⟩] := by
  refine ⟨?_, ?_, ?_, isortDesc_filter, searchEval04, searchEval05, searchEval0906⟩
  · intro enabled chunks qEmb limit r hr
    cases qEmb with
    | none => rw [search_none] at hr; cases hr
    | some q =>
      by_cases h1 : enabled = false ∨ chunks.length = 0
      · rw [search_trivial _ _ _ _ h1] at hr; cases hr
      · rw [search_some _ _ _ _ h1] at hr
        exact (mem_scoreChunks (mem_isortDesc.mp (List.take_subset _ _ hr))).1
  · intro enabled chunks qEmb limit
    cases qEmb with
    | none => rw [search_none]; simp
    | some q =>
      by_cases h1 : enabled = false ∨ chunks.length = 0
      · rw [search_trivial _ _ _ _ h1]; simp
      · rw [search_some _ _ _ _ h1, List.length_take]
        exact Nat.min_le_left _ _
  · intro enabled chunks qEmb limit
    cases qEmb with
    | none => rw [search_none]; exact List.Pairwise.nil
    | some q =>
      by_cases h1 : enabled = false ∨ chunks.length = 0
      · rw [search_trivial _ _ _ _ h1]; exact List.Pairwise.nil
      · rw [search_some _ _ _ _ h1]
        exact List.Pairwise.sublist (List.take_sublist _ _) (isortDesc_pairwise _)

/-- C2 witness: the 0.50-scoring result returned at limit 1 indeed scores
above the threshold. -/
theorem C2_search_ranking_witness : (0.45 : ℝ) < (1/2 : ℝ) :=
  C2_search_ranking.1 true [c05] (some q4) 1 ⟨"t05".toList, "doc", 1/2⟩
    (by rw [searchEval05]; exact List.mem_singleton.mpr rfl)

/-- C3: the claim says a chunk whose embedding request failed is *omitted —
not stored in the chunk store*.  Ingesting a 1600-character document whose
second window's embedding call fails stores BOTH windows, the second with
a null embedding: the failed chunk is stored, refuting the claim. -/
theorem C3_counterexample :
    ((processDocument ⟨[], []⟩ dC3 tBig fC3).1.chunks.map fun c => c.embedding) =
      [some [1], none] := by
  show (([] ++ buildChunks dC3 fC3 0 (chunkText tBig 1500 300)).map fun c : Chunk => c.embedding) =
    ([some [1], none] : List (Option (List ℝ)))
  rw [chunkText_tBig, List.nil_append]
  show ([fC3 0, fC3 1] : List (Option (List ℝ))) = [some [1], none]
  simp [fC3]

/-- C3 (amended): a failed window's chunk is stored with a null embedding
(never a zero vector), ingestion runs to completion over every window
regardless of per-window failures, and chunks lacking an embedding are
excluded from every subsequent search. -/
theorem C3_failed_chunks (db : Db) (d : DocMeta) (text : List Char)
    (f : ℕ → Option (List ℝ)) :
    ((processDocument db d text f).1.chunks.length =
      db.chunks.length + (chunkText text 1500 300).length) ∧
    (∀ i : ℕ, (processDocument db d text f).1.chunks[db.chunks.length + i]? =
      ((chunkText text 1500 300)[i]?).map fun ct =>
        (⟨d.id, d.name, i, ct, f i⟩ : Chunk)) ∧
    (∀ (enabled : Bool) (chunks : List Chunk) (qEmb : Option (List ℝ)) (limit : ℕ),
      search enabled chunks qEmb limit =
        search enabled (chunks.filter fun c => c.embedding.isSome) qEmb limit) := by
  refine ⟨?_, ?_, search_ignores_null⟩
  · simp only [processDocument, List.length_append, buildChunks_length]
  · intro i
    simp only [processDocument]
    rw [List.getElem?_append_right (by omega)]
    have hidx : db.chunks.length + i - db.chunks.length = i := by omega
    rw [hidx, buildChunks_get]
    simp

end AgentSuccess

namespace AgentSuccess

def rawC4 : List Char := "x\x7b\"a\":1\x7dy\x7b\"b\":2\x7d".toList

def rawC4ok : List Char := " \x60\x60\x60json\n\x7b\"ok\":true\x7d\n\x60\x60\x60 ".toList

/-- C4: the claim says the fallback extracts the first *balanced*
brace-delimited substring.  On this model output the first balanced
substring parses fine, so under the claim the endpoint would answer
success; the code's greedy regex instead spans from the first brace to the
*last* closing brace, `JSON.parse` throws on the extracted text, and the
endpoint answers the outer catch's 500 error. -/
theorem C4_counterexample :
    (coachingParse rawC4).isServerError = true ∧
    specFirstBalancedExtract (cleanRaw rawC4) = some ("\x7b\"a\":1\x7d".toList) ∧
    (jsonParse ("\x7b\"a\":1\x7d".toList)).isSome = true :=
  ⟨rfl, rfl, rfl⟩

/-- C4 (amended): after fence stripping, the endpoint strict-parses the
cleaned text; on failure it extracts the substring spanning from the first
opening brace to the last closing brace and strict-parses that; when no
such candidate exists it returns the typed `{success:false}` payload, and
when the candidate fails to parse the endpoint's outer catch returns the
500 payload — every model output yields exactly one of these structured
responses, and the extraction really is the first-brace-to-last-brace span
of the cleaned text. -/
theorem C4_parse_pipeline :
    (∀ raw j, jsonParse (cleanRaw raw) = some j → coachingParse raw = .success j) ∧
    (∀ raw, jsonParse (cleanRaw raw) = none → greedyBraceExtract (cleanRaw raw) = none →
      coachingParse raw = .parseFailure) ∧
    (∀ raw sub j, jsonParse (cleanRaw raw) = none →
      greedyBraceExtract (cleanRaw raw) = some sub → jsonParse sub = some j →
      coachingParse raw = .success j) ∧
    (∀ raw sub, jsonParse (cleanRaw raw) = none →
      greedyBraceExtract (cleanRaw raw) = some sub → jsonParse sub = none →
      coachingParse raw = .serverError) ∧
    (∀ s sub, greedyBraceExtract s = some sub →
      ∃ pre post, s = pre ++ sub ++ post ∧ lbrace ∉ pre ∧ rbrace ∉ post ∧
        sub.head? = some lbrace ∧ sub.getLast? = some rbrace) := by
  refine ⟨?_, ?_, ?_, ?_, fun s sub h => greedyBraceExtract_spec h⟩
  · intro raw j h; simp only [coachingParse, h]
  · intro raw h1 h2; simp only [coachingParse, h1, h2]
  · intro raw sub j h1 h2 h3; simp only [coachingParse, h1, h2, h3]
  · intro raw sub h1 h2 h3; simp only [coachingParse, h1, h2, h3]

/-- C4 witness: a fenced, well-formed model output parses to success, and
the counterexample output takes the throwing-fallback path to the 500
response. -/
theorem C4_parse_pipeline_witness :
    coachingParse rawC4ok = .success (Json.obj [("ok".toList, Json.bool true)]) ∧
    coachingParse rawC4 = .serverError :=
  ⟨C4_parse_pipeline.1 rawC4ok _ (by rfl),
   C4_parse_pipeline.2.2.2.1 rawC4 ("\x7b\"a\":1\x7dy\x7b\"b\":2\x7d".toList)
     (by rfl) (by rfl) (by rfl)⟩

/-- C5: `search` returns `[]` rather than raising on an empty store, on a
failed query embedding (the JS `null`), and when every scored chunk falls
at or below the 0.45 relevance threshold; the model is a total function,
so this path can never raise. -/
theorem C5_search_degrades :
    (∀ (enabled : Bool) (qEmb : Option (List ℝ)) (limit : ℕ),
      search enabled [] qEmb limit = []) ∧
    (∀ (enabled : Bool) (chunks : List Chunk) (limit : ℕ),
      search enabled chunks none limit = []) ∧
    (∀ (enabled : Bool) (chunks : List Chunk) (q : List ℝ) (limit : ℕ),
      (∀ c, c ∈ chunks → ∀ x, cosineSimilarity q (c.embedding.getD []) = some x →
        x ≤ 0.45) →
      search enabled chunks (some q) limit = []) := by
  refine ⟨fun enabled qEmb limit => search_nil enabled qEmb limit,
    fun enabled chunks limit => search_none enabled chunks limit, ?_⟩
  intro enabled chunks q limit h
  by_cases h1 : enabled = false ∨ chunks.length = 0
  · exact search_trivial _ _ _ _ h1
  · rw [search_some _ _ _ _ h1]
    have hnil : scoreChunks q chunks = [] := by
      by_contra hne
      obtain ⟨r, hr⟩ := List.exists_mem_of_ne_nil _ hne
      obtain ⟨ht, c, hc, hlive, htext, hdoc, hcos⟩ := mem_scoreChunks hr
      exact absurd (h c hc r.score hcos) (not_le.mpr ht)
    rw [hnil]
    simp [isortDesc]

/-- C5 witness: the 0.40-scoring store comes back empty. -/
theorem C5_search_degrades_witness : search true [c04] (some q4) 3 = [] :=
  C5_search_degrades.2.2 true [c04] q4 3 (by
    intro c hc x hx
    rw [List.mem_singleton] at hc
    subst hc
    rw [cosEval04] at hx
    obtain rfl := Option.some_injective _ hx.symm
    norm_num)

end AgentSuccess

namespace AgentSuccess

def conv0 : Conversation := ⟨"c", [], "Ann", "active", 0⟩

def st6 : ServerState :=
  ⟨[("c", conv0)], [("s", ⟨[], "Bob"⟩)], [(1, "c"), (2, "c"), (1, "voice-s"), (2, "voice-s")],
    [1, 2]⟩

def sock1 : Socket := ⟨1, some "customer", some "c"⟩

/-- C6: the claim says the sender of a message event never receives its
own `new_message` back, and that `session_ended` reaches the whole room,
initiator included.  In this two-socket room, socket 1's own
`send_message` broadcast lists socket 1 among the recipients (the handler
uses `io.to`), and socket 1's `voice_end` broadcast reaches only socket 2
(the handler uses `socket.to`) — both halves of the claim fail. -/
theorem C6_counterexample :
    ((serverHandle st6 sock1 (.sendMessage (some "c") "hi" (some "customer")) 7).2.2.head? =
      some ⟨[1, 2], .newMessage ⟨7, some "customer", "hi", 7, "c"⟩⟩) ∧
    (serverHandle st6 sock1 (.voiceEnd "s") 9).2.2 = [⟨[2], .voiceSessionEnded "s"⟩] := by
  exact ⟨rfl, rfl⟩

/-- C6 (amended): a `voice_transcript` broadcast excludes its sender
(`socket.to`); a `send_message` `new_message` broadcast goes to the whole
conversation room, the sender not excluded (`io.to`); and the
`voice_session_ended` lifecycle broadcast goes only to the other room
members, the initiator excluded (`socket.to`). -/
theorem C6_broadcast_policy :
    (∀ (st : ServerState) (sock : Socket) (s : String) (e : TranscriptEntry) (now : ℕ),
      (serverHandle st sock (.voiceTranscript s e) now).2.2 =
        [⟨othersIn st (voiceRoom s) sock.id, .voiceNewEntry s e⟩] ∧
      sock.id ∉ othersIn st (voiceRoom s) sock.id) ∧
    (∀ (st : ServerState) (sock : Socket) (cid text : String) (role : Option String)
        (conv : Conversation) (now : ℕ), lookupKey st.conversations cid = some conv →
      ∃ m, ((serverHandle st sock (.sendMessage (some cid) text role) now).2.2).head? =
        some ⟨roomMembers st cid, .newMessage m⟩) ∧
    (∀ (st : ServerState) (sock : Socket) (s : String) (now : ℕ),
      (serverHandle st sock (.voiceEnd s) now).2.2 =
        [⟨othersIn st (voiceRoom s) sock.id, .voiceSessionEnded s⟩] ∧
      sock.id ∉ othersIn st (voiceRoom s) sock.id) := by
  refine ⟨?_, ?_, ?_⟩
  · intro st sock s e now
    constructor
    · simp only [serverHandle]
      cases lookupKey st.voiceSessions s <;> rfl
    · simp [othersIn, List.mem_filter]
  · intro st sock cid text role conv now h
    refine ⟨⟨now, role.orElse fun _ => sock.role, text, now, cid⟩, ?_⟩
    simp only [serverHandle, Option.orElse, h]
    rfl
  · intro st sock s now
    exact ⟨rfl, by simp [othersIn, List.mem_filter]⟩

/-- C6 witness: in the concrete two-socket room the `new_message`
broadcast is addressed to the whole room. -/
theorem C6_broadcast_policy_witness :
    ∃ m, ((serverHandle st6 sock1 (.sendMessage (some "c") "hello" none) 3).2.2).head? =
      some ⟨roomMembers st6 "c", .newMessage m⟩ :=
  C6_broadcast_policy.2.1 st6 sock1 "c" "hello" none conv0 3 rfl

/-- C7: every transcript event cancels the outstanding debounce timer for
the session and arms a fresh 1500 ms one, so of three entries arriving
inside one debounce window only the last-armed timer fires — exactly one
coaching invocation, carrying the entries accumulated at fire time. -/
theorem C7_debounce_coalesces :
    (∀ (p : Option (ℕ × List TranscriptEntry)) (t : ℕ) (tr : List TranscriptEntry),
      finalEntries tr ≠ [] → armEffect p t tr = some (t + 1500, finalEntries tr)) ∧
    (∀ (t1 t2 t3 : ℕ) (tr1 tr2 tr3 : List TranscriptEntry),
      t2 < t1 + 1500 → t3 < t2 + 1500 →
      finalEntries tr1 ≠ [] → finalEntries tr2 ≠ [] → finalEntries tr3 ≠ [] →
      debounceComplete [(t1, tr1), (t2, tr2), (t3, tr3)] = [finalEntries tr3]) := by
  constructor
  · intro p t tr h
    simp only [armEffect, if_neg h]
  · intro t1 t2 t3 tr1 tr2 tr3 h12 h23 hf1 hf2 hf3
    simp only [debounceComplete, debounceRun, fireIfDue, armEffect, if_neg hf1, if_neg hf2,
      if_neg hf3, if_neg (by omega : ¬(t1 + 1500 ≤ t2)), if_neg (by omega : ¬(t2 + 1500 ≤ t3))]
    simp

def e1 : TranscriptEntry := ⟨"1", "agent", "a", "t"⟩

def e2 : TranscriptEntry := ⟨"2", "customer", "b", "t"⟩

def e3 : TranscriptEntry := ⟨"3", "agent", "c", "t"⟩

/-- C7 witness: three entries at 0 ms, 10 ms and 20 ms produce exactly one
invocation, with the full transcript. -/
theorem C7_debounce_coalesces_witness :
    debounceComplete [(0, [e1]), (10, [e1, e2]), (20, [e1, e2, e3])] = [[e1, e2, e3]] := by
  have h := C7_debounce_coalesces.2 0 10 20 [e1] [e1, e2] [e1, e2, e3]
    (by omega) (by omega) (by decide) (by decide) (by decide)
  rw [h]
  decide

/-- C8: for nonempty text and size S strictly larger than overlap O,
window i starts at i·(S−O) (every window but possibly the last has length
exactly S), and concatenating the windows with each later window's leading
O characters dropped reconstructs the original text. -/
theorem C8_chunk_reconstruction (t : List Char) (S O : ℕ) (h1 : t ≠ []) (h2 : O < S) :
    (∀ i c, (chunkText t S O)[i]? = some c → c = (t.drop (i * (S - O))).take S) ∧
    (∀ i c, (chunkText t S O)[i]? = some c → i + 1 < (chunkText t S O).length →
      c.length = S) ∧
    dedupConcat O (chunkText t S O) = t := by
  have hlen : 0 < t.length := List.length_pos.mpr h1
  refine ⟨?_, ?_, ?_⟩
  · intro i c h
    have h3 := (chunkTextAux_get (t.length + 1) 0 i c h).1
    simpa using h3
  · intro i c h hi
    exact (chunkTextAux_get (t.length + 1) 0 i c h).2 hi
  · have h3 := chunkTextAux_recon h2 (t.length + 1) 0 (by omega) hlen
    simpa [chunkText] using h3

/-- C8 witness: "abcdef" with S = 3, O = 1 chunks to [abc, cde, ef] and
de-duplicated concatenation restores it. -/
theorem C8_chunk_reconstruction_witness :
    dedupConcat 1 (chunkText "abcdef".toList 3 1) = "abcdef".toList ∧
    chunkText "abcdef".toList 3 1 = ["abc".toList, "cde".toList, "ef".toList] :=
  ⟨(C8_chunk_reconstruction "abcdef".toList 3 1 (by decide) (by decide)).2.2, by decide⟩

/-- C9: the claim says a stored chunk whose embedding dimensionality
differs from the query's is rejected or skipped before cosine similarity
is evaluated.  A two-dimensional query against a store holding a single
three-dimensional chunk scores that chunk over its first two coordinates
and returns it — no dimension check exists. -/
theorem C9_counterexample :
    qC9.length = 2 ∧ (cC9.embedding.getD []).length = 3 ∧
    search true [cC9] (some qC9) 5 = [⟨"big".toList, "doc", 3/5⟩] :=
  ⟨rfl, rfl, searchEvalC9⟩

/-- C9 (amended): nothing enforces one dimensionality; every search result
comes from a chunk whose embedding is at least as long as the query (a
shorter stored embedding yields the JS NaN, which the threshold filter
drops), and longer embeddings are compared truncated to the query's
length. -/
theorem C9_dimension_policy (enabled : Bool) (chunks : List Chunk) (q : List ℝ) (limit : ℕ)
    (r : SearchResult) (h : r ∈ search enabled chunks (some q) limit) :
    ∃ c, c ∈ chunks ∧ r.text = c.text ∧ r.docName = c.docName ∧
      q.length ≤ (c.embedding.getD []).length ∧
      cosineSimilarity q (c.embedding.getD []) = some r.score := by
  by_cases h1 : enabled = false ∨ chunks.length = 0
  · rw [search_trivial _ _ _ _ h1] at h; cases h
  · rw [search_some _ _ _ _ h1] at h
    obtain ⟨ht, c, hc, hlive, htext, hdoc, hcos⟩ :=
      mem_scoreChunks (mem_isortDesc.mp (List.take_subset _ _ h))
    exact ⟨c, hc, htext, hdoc, cosineSimilarity_some_length hcos, hcos⟩

/-- C9 witness: the returned mismatched-dimension result is traced back to
its three-dimensional chunk. -/
theorem C9_dimension_policy_witness :
    ∃ c, c ∈ [cC9] ∧ (⟨"big".toList, "doc", 3/5⟩ : SearchResult).text = c.text ∧
      (⟨"big".toList, "doc", 3/5⟩ : SearchResult).docName = c.docName ∧
      qC9.length ≤ (c.embedding.getD []).length ∧
      cosineSimilarity qC9 (c.embedding.getD []) =
        some (⟨"big".toList, "doc", 3/5⟩ : SearchResult).score :=
  C9_dimension_policy true [cC9] qC9 5 ⟨"big".toList, "doc", 3/5⟩
    (by rw [searchEvalC9]; exact List.mem_singleton.mpr rfl)

/-- C10: a `voice_transcript` whose sessionId has no registered session
records nothing — the server state is returned unchanged — yet the
`voice_new_entry` broadcast still goes to every other member of room
`voice-{sessionId}`; the broadcast is not conditioned on the session
existing. -/
theorem C10_transcript_unknown_session (st : ServerState) (sock : Socket) (s : String)
    (entry : TranscriptEntry) (now : ℕ) (h : lookupKey st.voiceSessions s = none) :
    serverHandle st sock (.voiceTranscript s entry) now =
      (st, sock, [⟨othersIn st (voiceRoom s) sock.id, .voiceNewEntry s entry⟩]) := by
  simp only [serverHandle, h]

def stW : ServerState := ⟨[], [], [(1, "voice-z"), (2, "voice-z")], [1, 2]⟩

def sockW : Socket := ⟨1, none, none⟩

def entryW : TranscriptEntry := ⟨"e1", "agent", "hello", "t"⟩

/-- C10 witness: with no session "z" registered, socket 1's transcript
leaves the state untouched and still reaches socket 2. -/
theorem C10_transcript_unknown_session_witness :
    serverHandle stW sockW (.voiceTranscript "z" entryW) 3 =
      (stW, sockW, [⟨[2], .voiceNewEntry "z" entryW⟩]) := by
  have h := C10_transcript_unknown_session stW sockW "z" entryW 3 rfl
  rw [h]
  decide

end AgentSuccess
